import Mathlib

/-!
Verification of the Takeoff Aggregation & Workbook Synthesis Engine
(src/components/ResultsView.tsx).

The shallow embedding models JavaScript semantics explicitly:
* JS numbers are modelled as rationals (ℚ); all the arithmetic the engine
  performs (sums and products of quantities, weights and prices) is exact
  on the rationals up to floating-point reassociation, which the spec
  explicitly tolerates.
* JS strings are modelled as Lean `String`s; string algorithms
  (`split`, `includes`, `replace`, `toLowerCase`, `toUpperCase`,
  `localeCompare`) are re-implemented character-by-character on `List Char`
  so that every definition is executable by the kernel.  `toLowerCase` /
  `toUpperCase` / `localeCompare` use the ASCII / code-point order
  approximation of the JS (locale-dependent) operations.
* JS objects / `Map`s used as dictionaries are modelled as insertion-ordered
  association lists (all keys used by the program are non-index strings, so
  JS preserves insertion order); plain-object assignment overwrites, which
  is modelled by a last-write-wins lookup over the recording history.
* `Array.prototype.sort` (guaranteed stable since ES2019) applied with a
  consistent comparator `cmp` is modelled by the stable
  `List.insertionSort (fun a b => cmp a b ≤ 0)`.
-/

namespace Takeoff

/-! ### Character/string primitives (JS semantics) -/

/-- Tests whether the first list is a prefix of the second (Boolean, executable). -/
def charsStartWith : List Char → List Char → Bool
  | [], _ => true
  | _ :: _, [] => false
  | a :: as, b :: bs => a == b && charsStartWith as bs

/-- JS `String.prototype.includes`: does `pat` occur as a contiguous substring of `s`? -/
def charsContains (pat : List Char) : List Char → Bool
  | [] => charsStartWith pat []
  | c :: rest => charsStartWith pat (c :: rest) || charsContains pat rest

/-- JS `a.includes(b)` on strings. -/
def jsIncludes (s pat : String) : Bool := charsContains pat.data s.data

/-- JS `String.prototype.toLowerCase` (ASCII approximation). -/
def jsToLower (s : String) : String := String.mk (s.data.map Char.toLower)

/-- JS `String.prototype.toUpperCase` (ASCII approximation). -/
def jsToUpper (s : String) : String := String.mk (s.data.map Char.toUpper)

/-- Step function for `jsSplitChars`: accumulate finished segments and the
current segment; cut whenever the current segment ends with the separator.
Cutting at the first position where a separator occurrence ends is exactly
the leftmost non-overlapping matching of JS `String.prototype.split`. -/
def jsSplitStep (sep : List Char) (acc : List (List Char) × List Char) (c : Char) :
    List (List Char) × List Char :=
  let cur := acc.2 ++ [c]
  if !sep.isEmpty && charsStartWith sep.reverse cur.reverse then
    (acc.1 ++ [cur.take (cur.length - sep.length)], [])
  else (acc.1, cur)

/-- JS `s.split(sep)` for a non-empty string separator `sep`:
splits on leftmost non-overlapping occurrences; `"".split(sep) = [""]`,
and a string without an occurrence of `sep` yields the one-element list. -/
def jsSplitChars (sep s : List Char) : List (List Char) :=
  let out := s.foldl (jsSplitStep sep) ([], [])
  out.1 ++ [out.2]

/-- JS `s.split(sep)` on strings. -/
def jsSplit (s sep : String) : List String :=
  (jsSplitChars sep.data s.data).map String.mk

/-! ### Item Classifier (ResultsView.tsx lines 67–83)

```js
const parts = item.description.split(' - ');
let groupName = item.description;
let axis = 'General';
if (parts.length >= 3) {
    axis = parts.pop() || 'General';
    groupName = parts.join(' - ');
} else if (parts.length === 2) {
    axis = parts[1];
    groupName = parts[0];
}
```
-/

/-- The item classifier: description ↦ (group name, axis/location label).
`parts.pop() || 'General'` falls back to `'General'` when the popped last
segment is the empty string (the empty string is falsy in JS). -/
def classifyDescription (description : String) : String × String :=
  let parts := jsSplit description " - "
  match parts with
  | a :: b :: c :: rest =>
      let last := ((a :: b :: c :: rest).getLastD "")
      let axis := if last = "" then "General" else last
      (String.intercalate " - " (a :: b :: c :: rest).dropLast, axis)
  | [a, b] => (a, b)
  | _ => (description, "General")

/-! ### Data model (types.ts) -/

/-- A takeoff line item as supplied by the extraction service (types.ts). -/
structure TakeoffItem where
  id : String
  description : String
  timesing : ℚ
  dimension : String
  quantity : ℚ
  unit : String
  category : String
  confidence : String
deriving DecidableEq

/-- A reinforcement record as supplied by the extraction service (types.ts). -/
structure RebarItem where
  id : String
  member : String
  barType : String
  shapeCode : String
  noOfMembers : ℚ
  barsPerMember : ℚ
  totalBars : ℚ
  lengthPerBar : ℚ
  totalLength : ℚ
  totalWeight : ℚ
deriving DecidableEq

/-- A takeoff item annotated with its parsed axis/location label
(`TakeoffItem & \x7b axis: string \x7d` in the source). -/
structure AxisItem extends TakeoffItem where
  axis : String
deriving DecidableEq

/-- A dimension-sheet group (interface GroupedItem in the source). -/
structure GroupedItem where
  name : String
  unit : String
  category : String
  items : List AxisItem
  totalQuantity : ℚ
deriving DecidableEq

/-! ### Grouping & Subtotal Engine (ResultsView.tsx lines 57–118) -/

/-- Case-insensitive substring search on the description
(`item.description.toLowerCase().includes(searchTerm.toLowerCase())`). -/
def matchesSearch (searchTerm : String) (item : TakeoffItem) : Bool :=
  jsIncludes (jsToLower item.description) (jsToLower searchTerm)

/-- Category filter (`categoryFilter === 'All' || item.category === categoryFilter`). -/
def matchesCategory (categoryFilter : String) (item : TakeoffItem) : Bool :=
  categoryFilter == "All" || item.category == categoryFilter

/-- An item passes the filter iff it passes both predicates. -/
def passesFilter (searchTerm categoryFilter : String) (item : TakeoffItem) : Bool :=
  matchesSearch searchTerm item && matchesCategory categoryFilter item

/-- Composite bucket key: `groupName|unit|category`. -/
def groupKey (groupName : String) (item : TakeoffItem) : String :=
  groupName ++ "|" ++ item.unit ++ "|" ++ item.category

/-- A freshly created bucket (`items: [], totalQuantity: 0`). -/
def emptyGroup (groupName : String) (item : TakeoffItem) : GroupedItem :=
  { name := groupName, unit := item.unit, category := item.category,
    items := [], totalQuantity := 0 }

/-- `groups[key].items.push(\x7b ...item, axis \x7d); groups[key].totalQuantity += item.quantity`. -/
def addMember (g : GroupedItem) (item : TakeoffItem) (axis : String) : GroupedItem :=
  { g with items := g.items ++ [{ toTakeoffItem := item, axis := axis }],
           totalQuantity := g.totalQuantity + item.quantity }

/-- Update of the insertion-ordered JS object `groups`: create the bucket on
first occurrence of the key, then append the member in place. -/
def insertGrouped (acc : List (String × GroupedItem)) (key groupName : String)
    (item : TakeoffItem) (axis : String) : List (String × GroupedItem) :=
  match acc with
  | [] => [(key, addMember (emptyGroup groupName item) item axis)]
  | (k, g) :: rest =>
      if k = key then (k, addMember g item axis) :: rest
      else (k, g) :: insertGrouped rest key groupName item axis

/-- One iteration of the `data.items.forEach` loop building `groups`. -/
def insertItem (searchTerm categoryFilter : String)
    (acc : List (String × GroupedItem)) (item : TakeoffItem) :
    List (String × GroupedItem) :=
  if passesFilter searchTerm categoryFilter item then
    let parsed := classifyDescription item.description
    insertGrouped acc (groupKey parsed.1 item) parsed.1 item parsed.2
  else acc

/-- The insertion-ordered bucket map after the whole `forEach` loop. -/
def buildGroups (items : List TakeoffItem) (searchTerm categoryFilter : String) :
    List (String × GroupedItem) :=
  items.foldl (insertItem searchTerm categoryFilter) []

/-- CATEGORY_ORDER (ResultsView.tsx lines 35–44): the logical construction order. -/
def CATEGORY_ORDER : List String :=
  ["Sub Structure", "Super Structure", "Openings", "Finishing Works",
   "Painting", "Electrical", "Mechanical", "Sanitary"]

/-- JS `Array.prototype.indexOf`: index of the first occurrence, `-1` if absent. -/
def jsIndexOf (l : List String) (c : String) : Int :=
  match l with
  | [] => -1
  | x :: rest =>
      if x = c then 0
      else
        let r := jsIndexOf rest c
        if r = -1 then -1 else r + 1

/-- Code-point lexicographic three-way comparison on character lists, the
model of JS `String.prototype.localeCompare` (default locale, returning a
negative, zero or positive number). -/
def lexCmpChars : List Char → List Char → Int
  | [], [] => 0
  | [], _ :: _ => -1
  | _ :: _, [] => 1
  | a :: as, b :: bs =>
      if a.toNat < b.toNat then -1
      else if b.toNat < a.toNat then 1
      else lexCmpChars as bs

/-- JS `a.localeCompare(b)` (code-point approximation). -/
def localeCompare (a b : String) : Int := lexCmpChars a.data b.data

/-- The sort comparator of `groupedData` (ResultsView.tsx lines 103–117):
category priority from CATEGORY_ORDER (`-1` mapped to `999`) when the raw
indices differ, otherwise `localeCompare` on the group names. -/
def groupCompare (a b : GroupedItem) : Int :=
  let idxA := jsIndexOf CATEGORY_ORDER a.category
  let idxB := jsIndexOf CATEGORY_ORDER b.category
  if idxA ≠ idxB then
    (if idxA = -1 then 999 else idxA) - (if idxB = -1 then 999 else idxB)
  else localeCompare a.name b.name

/-- The effective sort priority `sortA`/`sortB` of the comparator: an
unknown category (index −1) is mapped to 999, i.e. after every known one. -/
def catPriority (g : GroupedItem) : Int :=
  if jsIndexOf CATEGORY_ORDER g.category = -1 then 999
  else jsIndexOf CATEGORY_ORDER g.category

/-- The non-strict order induced by the comparator; JS stable sort with
comparator `cmp` equals the stable insertion sort under `cmp a b ≤ 0`. -/
def groupRel (a b : GroupedItem) : Prop := groupCompare a b ≤ 0

instance : DecidableRel groupRel :=
  fun a b => inferInstanceAs (Decidable (groupCompare a b ≤ 0))

/-- `groupedData`: filter, bucket, then stable-sort by the comparator. -/
def groupedData (items : List TakeoffItem) (searchTerm categoryFilter : String) :
    List GroupedItem :=
  List.insertionSort groupRel ((buildGroups items searchTerm categoryFilter).map Prod.snd)

/-! ### Rebar Aggregator (ResultsView.tsx lines 133–146) -/

/-- A rebar summary entry (`\x7b name, totalQuantity, unit \x7d`). -/
structure RebarSummary where
  name : String
  totalQuantity : ℚ
  unit : String
deriving DecidableEq

/-- One step of the `summaryMap` accumulation: `Map.set` updates the existing
key in place (insertion order preserved) or appends a new key. -/
def addWeight (acc : List (String × ℚ)) (barType : String) (w : ℚ) :
    List (String × ℚ) :=
  match acc with
  | [] => [(barType, w)]
  | (k, v) :: rest =>
      if k = barType then (k, v + w) :: rest
      else (k, v) :: addWeight rest barType w

/-- The insertion-ordered weight map keyed solely by bar type. -/
def rebarWeightMap (rebarItems : List RebarItem) : List (String × ℚ) :=
  rebarItems.foldl (fun acc it => addWeight acc it.barType it.totalWeight) []

/-- Display name `Reinforcement Bars (Type <barType>)`. -/
def rebarDisplayName (t : String) : String :=
  "Reinforcement Bars (Type " ++ t ++ ")"

/-- The sort order of the rebar summaries: `localeCompare` on display names. -/
def summaryRel (a b : RebarSummary) : Prop := localeCompare a.name b.name ≤ 0

instance : DecidableRel summaryRel :=
  fun a b => inferInstanceAs (Decidable (localeCompare a.name b.name ≤ 0))

/-- `rebarSummary`: aggregate weight per bar type, format the display name,
fix the mass unit, sort alphabetically (stable sort on the comparator). -/
def rebarSummary (rebarItems : List RebarItem) : List RebarSummary :=
  List.insertionSort summaryRel
    ((rebarWeightMap rebarItems).map
      (fun p => { name := rebarDisplayName p.1, totalQuantity := p.2, unit := "kg" }))

/-! ### Cost / grand total (ResultsView.tsx lines 160–173) -/

/-- Last-write-wins lookup in a JS plain object modelled as the ordered list
of assignments (a later assignment to the same key overwrites). -/
def recordGet {β : Type} (m : List (String × β)) (k : String) : Option β :=
  match m with
  | [] => none
  | e :: rest =>
      match recordGet rest k with
      | some v => some v
      | none => if e.1 = k then some e.2 else none

/-- `unitPrices[name] || 0`: an absent entry contributes rate 0 (and a stored
0 also reads as 0, which coincides). -/
def priceOf (unitPrices : List (String × ℚ)) (name : String) : ℚ :=
  match recordGet unitPrices name with
  | some v => v
  | none => 0

/-- `grandTotalCost`: Σ over groups of totalQuantity × rate plus Σ over rebar
summaries of totalQuantity × rate, accumulated exactly as the two loops do. -/
def grandTotalCost (gd : List GroupedItem) (rs : List RebarSummary)
    (unitPrices : List (String × ℚ)) : ℚ :=
  let total := gd.foldl (fun t g => t + g.totalQuantity * priceOf unitPrices g.name) 0
  rs.foldl (fun t r => t + r.totalQuantity * priceOf unitPrices r.name) total

/-! ### Dimension Formula Synthesizer (ResultsView.tsx lines 225–256) -/

/-- The split characters of `dimension.split(/[xX*]/)`. -/
def isDimSep (c : Char) : Bool := c == 'x' || c == 'X' || c == '*'

/-- Splits a character list on the single characters satisfying `p`
(JS `split` with a single-character regex class). -/
def splitCharsOn (p : Char → Bool) : List Char → List (List Char)
  | [] => [[]]
  | c :: rest =>
      let r := splitCharsOn p rest
      if p c then [] :: r
      else
        match r with
        | [] => [[c]]
        | h :: t => (c :: h) :: t

/-- Maximal leading run of decimal digits and the remainder. -/
def digitRun : List Char → List Char × List Char
  | [] => ([], [])
  | c :: rest =>
      if c.isDigit then
        let p := digitRun rest
        (c :: p.1, p.2)
      else ([], c :: rest)

/-- Greedy match of the regex body `([0-9]*[.])?[0-9]+` at the start of the
input: the optional group can only use the maximal digit run (backtracking a
digit run never exposes a `.`), and if no digit follows the `.` the group is
dropped and the bare digit run (if non-empty) matches. -/
def matchBody (cs : List Char) : Option (List Char) :=
  let p := digitRun cs
  match p.2 with
  | '.' :: rest2 =>
      let p2 := digitRun rest2
      if p2.1 ≠ [] then some (p.1 ++ '.' :: p2.1)
      else if p.1 ≠ [] then some p.1
      else none
  | _ => if p.1 ≠ [] then some p.1 else none

/-- Match of `[+-]?([0-9]*[.])?[0-9]+` anchored at the current position: if
the head is a sign the body must match right after it (retrying the same
position without consuming the sign can never succeed on a sign character). -/
def matchNumAt : List Char → Option (List Char)
  | [] => none
  | c :: rest =>
      if c == '+' || c == '-' then (matchBody rest).map (fun m => c :: m)
      else matchBody (c :: rest)

/-- Leftmost match of the number regex in a segment (JS `String.match` with a
non-global regex returns the first match). -/
def firstNumMatch : List Char → Option (List Char)
  | [] => none
  | c :: rest =>
      match matchNumAt (c :: rest) with
      | some m => some m
      | none => firstNumMatch rest

/-- The sanitized numeric tokens of a dimension expression, in original
left-to-right segment order (segments without a numeric token are skipped). -/
def sanitizedParts (dimension : String) : List String :=
  (splitCharsOn isDimSep dimension.data).filterMap
    (fun part => (firstNumMatch part).map String.mk)

/-- A spreadsheet cell of the abstract workbook: a string, a plain number, a
formula with a cached numeric value (`\x7b t:'n', f, v \x7d`), or a formula
without a cached value (`\x7b t:'n', f \x7d`). -/
inductive Cell where
  | str (v : String)
  | num (v : ℚ)
  | numF (formula : String) (v : ℚ)
  | fOnly (formula : String)
deriving DecidableEq

/-- Does the cell carry a cached or literal value? -/
def cellHasValue : Cell → Bool
  | .str _ => true
  | .num _ => true
  | .numF _ _ => true
  | .fOnly _ => false

/-- JS `x || d` on numbers: `0` is falsy and falls back to the default. -/
def jsOrDefault (x dflt : ℚ) : ℚ := if x = 0 then dflt else x

/-- Rendering of the multiplier in a formula string (JS template literal).
Integral values render exactly as JS renders integral numbers; non-integral
rationals (which the upstream schema never produces for a repetition count)
use a fraction rendering. -/
def qToFormulaStr (q : ℚ) : String :=
  if q.den = 1 then toString q.num
  else toString q.num ++ "/" ++ toString q.den

/-- The synthesized Dim-Sheet quantity cell (lines 241–256): a formula cell
`timesing*token1*token2*...` with the precomputed quantity as cached value
when at least one numeric token was extracted, otherwise the plain
precomputed quantity. -/
def quantityCell (item : TakeoffItem) : Cell :=
  let parts := sanitizedParts item.dimension
  if parts.length > 0 then
    let timesingVal := jsOrDefault item.timesing 1
    let timesingStr := if timesingVal ≠ 1 then qToFormulaStr timesingVal ++ "*" else ""
    Cell.numF (timesingStr ++ String.intercalate "*" parts) item.quantity
  else Cell.num item.quantity

/-! ### Workbook Emitter (handleExport, ResultsView.tsx lines 183–404) -/

/-- A sheet row (array-of-arrays row as handed to `aoa_to_sheet`). -/
abbrev Row := List Cell

/-- The single-quote character, used in cross-sheet references. -/
def sq : String := String.mk [Char.ofNat 39]

/-- `XLSX.utils.encode_col` for the first 26 columns (the engine only ever
encodes column 3 = D). -/
def encodeCol (c : Nat) : String := String.mk [Char.ofNat (65 + c)]

/-- `XLSX.utils.encode_cell(\x7b r, c \x7d)`: 0-based row index `r` rendered as
the 1-based Excel row number. -/
def encodeCell (r c : Nat) : String := encodeCol c ++ toString (r + 1)

/-- The cross-sheet address recorded for a subtotal at 0-based Dim-Sheet row
index `r`: `'Dim Sheet'!D<r+1>`. -/
def dimAddr (r : Nat) : String := sq ++ "Dim Sheet" ++ sq ++ "!" ++ encodeCell r 3

/-- The emitter state while writing the Dim Sheet: the rows pushed so far,
the recording history of the group-address map, the running previous
category, and the `currentRowIdx` counter from the source. -/
structure DimState where
  rows : List Row
  addrMap : List (String × String)
  lastCat : String
  currentRowIdx : Nat
deriving DecidableEq

/-- Push one row and advance the counter. -/
def pushRow (st : DimState) (row : Row) : DimState :=
  { st with rows := st.rows ++ [row], currentRowIdx := st.currentRowIdx + 1 }

/-- The two physical rows of one member item: the logic row
(timesing > 1 ? timesing : 1, axis, dimension, empty) and the value row
(only the quantity column populated). -/
def itemDataRow (it : AxisItem) : Row :=
  [Cell.num (if it.timesing > 1 then it.timesing else 1),
   Cell.str it.axis, Cell.str it.dimension, Cell.str ""]

/-- The value row holding the synthesized-or-fallback quantity cell. -/
def itemCalcRow (it : AxisItem) : Row :=
  [Cell.str "", Cell.str "", Cell.str "", quantityCell it.toTakeoffItem]

/-- Push the two physical rows of one member item. -/
def pushItemRows (st : DimState) (it : AxisItem) : DimState :=
  { st with rows := st.rows ++ [itemDataRow it, itemCalcRow it],
            currentRowIdx := st.currentRowIdx + 2 }

/-- The subtotal row of a group. -/
def subtotalRow (g : GroupedItem) : Row :=
  [Cell.str "", Cell.str "SUBTOTAL", Cell.str "", Cell.num g.totalQuantity]

/-- Category-change header: emitted only when the category differs from the
previously emitted group's category. -/
def emitCatHeader (st : DimState) (g : GroupedItem) : DimState :=
  if g.category ≠ st.lastCat then
    { st with
        rows := st.rows ++
          [[Cell.str "", Cell.str (jsToUpper g.category), Cell.str "", Cell.str ""]],
        lastCat := g.category,
        currentRowIdx := st.currentRowIdx + 1 }
  else st

/-- Push the subtotal row and record its address in the map at the
pre-increment `currentRowIdx`, exactly as the source does (the address is
computed from `currentRowIdx` before the `currentRowIdx++`). -/
def pushSubtotal (st : DimState) (g : GroupedItem) : DimState :=
  { st with
      rows := st.rows ++ [subtotalRow g],
      addrMap := st.addrMap ++ [(g.name, dimAddr st.currentRowIdx)],
      currentRowIdx := st.currentRowIdx + 1 }

/-- Emission of one group: optional category header, group-name header, two
rows per member item, the subtotal row with its address recording, and a
blank spacer row. -/
def emitGroup (st : DimState) (g : GroupedItem) : DimState :=
  let st1 := emitCatHeader st g
  let st2 := pushRow st1 [Cell.str "", Cell.str g.name, Cell.str "", Cell.str ""]
  let st3 := g.items.foldl pushItemRows st2
  pushRow (pushSubtotal st3 g) []

/-- The initial Dim-Sheet state: the header row, `currentRowIdx = 1`. -/
def dimInit : DimState :=
  { rows := [[Cell.str "Timesing", Cell.str "Description",
              Cell.str "Dimension", Cell.str "Quantity"]],
    addrMap := [], lastCat := "", currentRowIdx := 1 }

/-- The full Dim-Sheet emission pass over the sorted groups. -/
def emitDimSheet (gd : List GroupedItem) : DimState := gd.foldl emitGroup dimInit

/-- The Rebar Schedule header row (fixed ten-column layout). -/
def rebarHeaderRow : Row :=
  [Cell.str "Member", Cell.str "Bar Mark", Cell.str "Type/Size",
   Cell.str "Shape Code", Cell.str "No. Members", Cell.str "Bars/Member",
   Cell.str "Total Bars", Cell.str "Length (m)", Cell.str "Total Length (m)",
   Cell.str "Total Weight (kg)"]

/-- One Rebar Schedule row per input record (columns A..J, weight in J). -/
def rebarRow (it : RebarItem) : Row :=
  [Cell.str it.member, Cell.str it.id, Cell.str it.barType, Cell.str it.shapeCode,
   Cell.num it.noOfMembers, Cell.num it.barsPerMember, Cell.num it.totalBars,
   Cell.num it.lengthPerBar, Cell.num it.totalLength, Cell.num it.totalWeight]

/-- The Rebar Schedule sheet: header plus one row per record in input order. -/
def rebarScheduleRows (rebarItems : List RebarItem) : List Row :=
  rebarHeaderRow :: rebarItems.map rebarRow

/-- Same-row amount formula `C<excelRow>*D<excelRow>`. -/
def amountFormula (excelRow : Nat) : String :=
  "C" ++ toString excelRow ++ "*D" ++ toString excelRow

/-- The BOQ quantity cell of a group (lines 336–339): the recorded cross-sheet
reference when the map lookup is truthy (a non-empty string), otherwise the
static total. -/
def boqQtyCell (addrMap : List (String × String)) (g : GroupedItem) : Cell :=
  match recordGet addrMap g.name with
  | some qtyRef => if qtyRef = "" then Cell.num g.totalQuantity else Cell.fOnly qtyRef
  | none => Cell.num g.totalQuantity

/-- One BOQ row per dimension-sheet group. -/
def boqGroupRow (addrMap : List (String × String)) (unitPrices : List (String × ℚ))
    (g : GroupedItem) (excelRow : Nat) : Row :=
  [Cell.str g.name, Cell.str g.unit, boqQtyCell addrMap g,
   Cell.num (priceOf unitPrices g.name), Cell.fOnly (amountFormula excelRow)]

/-- The group section of the BOQ sheet, threading `boqRowIndex` (starting at
1; each row's Excel row number is `boqRowIndex + 1`). -/
def boqGroupSection (addrMap : List (String × String))
    (unitPrices : List (String × ℚ)) (gd : List GroupedItem) : List Row × Nat :=
  gd.foldl
    (fun acc g => (acc.1 ++ [boqGroupRow addrMap unitPrices g (acc.2 + 1)], acc.2 + 1))
    ([], 1)

/-- Cleaning the bar type out of a display name (lines 365–366):
`r.name.replace('Reinforcement Bars (Type ', '').replace(')', '')`, where JS
`replace` with a string pattern replaces only the first occurrence. -/
def replaceFirstChars (s pat repl : List Char) : List Char :=
  match s with
  | [] => if charsStartWith pat [] then repl else []
  | c :: rest =>
      if charsStartWith pat (c :: rest) then repl ++ (c :: rest).drop pat.length
      else c :: replaceFirstChars rest pat repl

/-- JS `s.replace(pat, repl)` for string patterns (first occurrence only). -/
def jsReplaceFirst (s pat repl : String) : String :=
  String.mk (replaceFirstChars s.data pat.data repl.data)

/-- The bar type extracted back out of a rebar summary display name. -/
def extractBarType (name : String) : String :=
  jsReplaceFirst (jsReplaceFirst name "Reinforcement Bars (Type " "") ")" ""

/-- The conditional-sum quantity formula
`SUMIF('Rebar Schedule'!C:C, "<barType>", 'Rebar Schedule'!J:J)`. -/
def sumIfFormula (barType : String) : String :=
  "SUMIF(" ++ sq ++ "Rebar Schedule" ++ sq ++ "!C:C, \"" ++ barType ++ "\", " ++
    sq ++ "Rebar Schedule" ++ sq ++ "!J:J)"

/-- One BOQ row per rebar summary (lines 362–383). -/
def boqRebarRow (unitPrices : List (String × ℚ)) (r : RebarSummary)
    (excelRow : Nat) : Row :=
  [Cell.str r.name, Cell.str r.unit,
   Cell.fOnly (sumIfFormula (extractBarType r.name)),
   Cell.num (priceOf unitPrices r.name), Cell.fOnly (amountFormula excelRow)]

/-- A blank five-column BOQ row. -/
def boqBlankRow : Row := [Cell.str "", Cell.str "", Cell.str "", Cell.str "", Cell.str ""]

/-- The rebar section of the BOQ sheet: emitted only when summaries exist
(spacer, section label, one row per summary), threading `boqRowIndex`. -/
def boqRebarSection (unitPrices : List (String × ℚ)) (rs : List RebarSummary)
    (startIdx : Nat) : List Row × Nat :=
  if rs.length > 0 then
    rs.foldl
      (fun acc r => (acc.1 ++ [boqRebarRow unitPrices r (acc.2 + 1)], acc.2 + 1))
      ([boqBlankRow,
        [Cell.str "REBAR SUMMARY", Cell.str "", Cell.str "", Cell.str "", Cell.str ""]],
       startIdx + 2)
  else ([], startIdx)

/-- The BOQ header row. -/
def boqHeaderRow : Row :=
  [Cell.str "Item Description", Cell.str "Unit", Cell.str "Total Quantity",
   Cell.str "Unit Rate", Cell.str "Total Amount"]

/-- The full BOQ sheet: header, group rows, optional rebar section, spacer,
grand-total row with `SUM(E2:E<boqRowIndex>)`. -/
def boqSheetRows (addrMap : List (String × String)) (unitPrices : List (String × ℚ))
    (gd : List GroupedItem) (rs : List RebarSummary) : List Row :=
  let gSec := boqGroupSection addrMap unitPrices gd
  let rSec := boqRebarSection unitPrices rs gSec.2
  boqHeaderRow :: gSec.1 ++ rSec.1 ++
    [boqBlankRow,
     [Cell.str "GRAND TOTAL", Cell.str "", Cell.str "", Cell.str "",
      Cell.fOnly ("SUM(E2:E" ++ toString rSec.2 ++ ")")]]

/-- The abstract three-sheet workbook, sheets in book order. -/
structure Workbook where
  dimSheet : List Row
  rebarSheet : List Row
  boqSheet : List Row
deriving DecidableEq

/-- The whole `handleExport` synthesis pass: Dim Sheet (recording subtotal
addresses), Rebar Schedule, then BOQ consuming the address map. -/
def handleExport (items : List TakeoffItem) (rebarItems : List RebarItem)
    (searchTerm categoryFilter : String) (unitPrices : List (String × ℚ)) :
    Workbook :=
  let gd := groupedData items searchTerm categoryFilter
  let rs := rebarSummary rebarItems
  let dim := emitDimSheet gd
  { dimSheet := dim.rows,
    rebarSheet := rebarScheduleRows rebarItems,
    boqSheet := boqSheetRows dim.addrMap unitPrices gd rs }

/-! ### Concrete inputs used by witnesses and counterexamples -/

/-- A sample takeoff item with the given description, category, unit,
dimension expression, quantity and multiplier. -/
def sampleItem (description category unit dimension : String) (q t : ℚ) :
    TakeoffItem :=
  { id := "1", description := description, timesing := t, dimension := dimension,
    quantity := q, unit := unit, category := category, confidence := "High" }

/-- An item whose dimension is the placeholder `"-"` (no numeric token). -/
def dashItem : TakeoffItem := sampleItem "Blinding" "Sub Structure" "m3" "-" 7 1

/-- An item with multiplier 0 and a numeric dimension. -/
def zeroTimesingItem : TakeoffItem := sampleItem "Footing" "Sub Structure" "m3" "2" 2 0

/-- The spec's worked dimension example with multiplier 1. -/
def specDimItem : TakeoffItem :=
  sampleItem "Beam" "Super Structure" "m3" "15.00 x 0.60 x 1.20" (54 / 5) 1

/-- Two wall items that classify into the same group. -/
def wallItem1 : TakeoffItem := sampleItem "Wall - C30 - G1" "Sub Structure" "m3" "2" 2 1

/-- Second member of the wall group. -/
def wallItem2 : TakeoffItem := sampleItem "Wall - C30 - G2" "Sub Structure" "m3" "3" 3 1

/-- The group produced for the two wall items. -/
def wallGroup : GroupedItem :=
  { name := "Wall - C30", unit := "m3", category := "Sub Structure",
    items := [{ toTakeoffItem := wallItem1, axis := "G1" },
              { toTakeoffItem := wallItem2, axis := "G2" }],
    totalQuantity := 5 }

section ClaimProofs

attribute [local semireducible] Rat.add Rat.mul Rat.inv

/-- An item in a category absent from CATEGORY_ORDER, encountered first. -/
def unknownCatItemB : TakeoffItem := sampleItem "B" "Zcat" "m" "2" 1 1

/-- A second unknown-category item, encountered second but named earlier. -/
def unknownCatItemA : TakeoffItem := sampleItem "A" "Ycat" "m" "2" 1 1

/-- A Painting item. -/
def paintItem : TakeoffItem := sampleItem "P" "Painting" "m2" "2" 2 1

/-- A Sub Structure item. -/
def subItem : TakeoffItem := sampleItem "S" "Sub Structure" "m3" "2" 2 1

/-- The group produced for `paintItem`. -/
def paintGroup : GroupedItem :=
  { name := "P", unit := "m2", category := "Painting",
    items := [{ toTakeoffItem := paintItem, axis := "General" }], totalQuantity := 2 }

/-- The group produced for `subItem`. -/
def subGroup : GroupedItem :=
  { name := "S", unit := "m3", category := "Sub Structure",
    items := [{ toTakeoffItem := subItem, axis := "General" }], totalQuantity := 2 }

/-- A rebar record of type Y16 (weight 10). -/
def rbA : RebarItem :=
  { id := "01", member := "Beam B1", barType := "Y16", shapeCode := "00",
    noOfMembers := 2, barsPerMember := 3, totalBars := 6, lengthPerBar := 4,
    totalLength := 24, totalWeight := 10 }

/-- A rebar record of type Y12 (weight 5). -/
def rbB : RebarItem := { rbA with id := "02", barType := "Y12", totalWeight := 5 }

/-- A second rebar record of type Y16 (weight 7), different member. -/
def rbC : RebarItem := { rbA with id := "03", member := "Col C1", totalWeight := 7 }

/-! ### Claim C5 -/

/-- Claim C5, counterexample: for the description `"a - b - "` the split yields
the three segments `["a", "b", ""]`; the claim says the location label is the
last segment (the empty string), but the classifier returns `"General"`
because `parts.pop() || 'General'` treats the empty string as falsy. -/
theorem classifyDescription_trailing_empty_cex :
    jsSplit "a - b - " " - " = ["a", "b", ""] ∧
    (classifyDescription "a - b - ").2 = "General" ∧ ("General" : String) ≠ "" :=
  ⟨by decide, by decide, by decide⟩

/-- Claim C5 (amended): splitting the description on `" - "`, if the split
yields 3 or more segments then the group name is the preceding segments
rejoined with `" - "` and the location is the last segment when it is
non-empty, `"General"` when the last segment is empty; with exactly 2
segments the second is the location and the first the group name; with 1
segment the group name is the whole input and the location is `"General"`. -/
theorem classifyDescription_spec (d : String) :
    (3 ≤ (jsSplit d " - ").length →
      classifyDescription d =
        (String.intercalate " - " (jsSplit d " - ").dropLast,
         if (jsSplit d " - ").getLastD "" = "" then "General"
         else (jsSplit d " - ").getLastD "")) ∧
    ((jsSplit d " - ").length = 2 →
      classifyDescription d = ((jsSplit d " - ").getD 0 "", (jsSplit d " - ").getD 1 "")) ∧
    ((jsSplit d " - ").length = 1 → classifyDescription d = (d, "General")) := by
  rcases hp : jsSplit d " - " with _ | ⟨a, _ | ⟨b, _ | ⟨c, rest⟩⟩⟩
  · exact ⟨fun h3 => by simp at h3, fun h2 => by simp at h2, fun h1 => by simp at h1⟩
  · refine ⟨fun h3 => by simp at h3, fun h2 => by simp at h2, fun h1 => ?_⟩
    simp [classifyDescription, hp]
  · refine ⟨fun h3 => by simp at h3, fun h2 => ?_, fun h1 => by simp at h1⟩
    simp [classifyDescription, hp]
  · refine ⟨fun h3 => ?_, fun h2 => ?_, fun h1 => ?_⟩
    · simp [classifyDescription, hp]
    · simp [List.length_cons] at h2
    · simp [List.length_cons] at h1

set_option maxRecDepth 80000 in
/-- Claim C5 witness: the amended theorem applied to the concrete description
from the spec, with the length hypothesis discharged by evaluation. -/
theorem classifyDescription_spec_witness :
    classifyDescription "Grade Beam (GB1) - Concrete C30 - Grid A"
      = ("Grade Beam (GB1) - Concrete C30", "Grid A") := by
  have h := (classifyDescription_spec "Grade Beam (GB1) - Concrete C30 - Grid A").1 (by decide)
  rw [h]; decide

/-! ### Claim C4 -/

/-- Claim C4: when no segment of the dimension expression (split on x, X, *)
yields a numeric token, the emitted quantity cell is the precomputed quantity
as a plain value with no formula; and the quantity cell always carries a
value. -/
theorem quantityCell_fallback (item : TakeoffItem)
    (h : ∀ part ∈ splitCharsOn isDimSep item.dimension.data, firstNumMatch part = none) :
    quantityCell item = Cell.num item.quantity ∧
    cellHasValue (quantityCell item) = true := by
  have hp : sanitizedParts item.dimension = [] := by
    rw [sanitizedParts, List.filterMap_eq_nil_iff]
    intro part hpart
    rw [h part hpart]
    rfl
  refine ⟨?_, ?_⟩ <;> simp [quantityCell, hp, cellHasValue]

/-- Claim C4 witness: the fallback theorem applied to the placeholder
dimension expression from the spec. -/
theorem quantityCell_fallback_witness :
    quantityCell dashItem = Cell.num 7 ∧
    cellHasValue (quantityCell dashItem) = true :=
  quantityCell_fallback dashItem (by decide)

/-! ### Claim C3 -/

/-- Claim C3, counterexample: for multiplier 0 (which differs from 1) and
dimension `"2"`, the claim requires the formula `"0*2"`, but
`item.timesing || 1` coerces the falsy multiplier 0 to 1 and the code emits
the formula `"2"` without a multiplier factor. -/
theorem quantityCell_zero_timesing_cex :
    zeroTimesingItem.timesing = 0 ∧ zeroTimesingItem.timesing ≠ 1 ∧
    quantityCell zeroTimesingItem = Cell.numF "2" 2 ∧
    ("2" : String) ≠ "0*2" :=
  ⟨by decide, by decide, by decide, by decide⟩

/-- Claim C3 (amended): when at least one numeric token is extracted, the
quantity cell is a formula cell whose cached value is the precomputed
quantity and whose formula is the coerced multiplier (the multiplier when it
is non-zero, 1 otherwise) followed by a multiplication operator if and only
if the coerced multiplier differs from 1, then the extracted numeric tokens
in original left-to-right order joined by the multiplication operator. -/
theorem quantityCell_formula_spec (item : TakeoffItem)
    (h : sanitizedParts item.dimension ≠ []) :
    quantityCell item =
      Cell.numF
        ((if jsOrDefault item.timesing 1 ≠ 1
          then qToFormulaStr (jsOrDefault item.timesing 1) ++ "*" else "")
         ++ String.intercalate "*" (sanitizedParts item.dimension))
        item.quantity := by
  rw [quantityCell]
  simp only [List.length_pos.mpr h, if_pos]

/-- Claim C3 witness: the amended theorem applied to the spec's worked
example, token order preserved. -/
theorem quantityCell_formula_spec_witness :
    sanitizedParts "15.00 x 0.60 x 1.20" = ["15.00", "0.60", "1.20"] ∧
    quantityCell specDimItem = Cell.numF "15.00*0.60*1.20" (54 / 5) :=
  ⟨by decide, by
    have h := quantityCell_formula_spec specDimItem (by decide)
    rw [h]; decide⟩

/-! ### Claim C7 -/

/-- Folding `t + f x` over a list starting from `a` gives `a` plus the sum. -/
theorem foldl_add_map_sum {α : Type} (l : List α) (f : α → ℚ) (a : ℚ) :
    l.foldl (fun t x => t + f x) a = a + (l.map f).sum := by
  induction l generalizing a with
  | nil => simp
  | cons x rest ih => simp [ih, add_assoc]

/-- Claim C7: the grand total equals Σ over groups of totalQuantity × rate
plus Σ over rebar summaries of totalQuantity × rate, a display name absent
from the price map contributing rate 0; with the empty price map the grand
total is 0. -/
theorem grandTotalCost_spec (gd : List GroupedItem) (rs : List RebarSummary)
    (unitPrices : List (String × ℚ)) :
    grandTotalCost gd rs unitPrices =
      (gd.map (fun g => g.totalQuantity * priceOf unitPrices g.name)).sum +
        (rs.map (fun r => r.totalQuantity * priceOf unitPrices r.name)).sum ∧
    grandTotalCost gd rs [] = 0 := by
  constructor
  · rw [grandTotalCost]
    rw [foldl_add_map_sum, foldl_add_map_sum]
    ring
  · rw [grandTotalCost]
    rw [foldl_add_map_sum, foldl_add_map_sum]
    simp [priceOf, recordGet]

/-! ### Claim C10 -/

/-- Claim C10: the exported Rebar Schedule sheet is independent of the search
term and the category filter — two synthesis passes over the same batches
that differ only in the filters produce the identical sheet — and the sheet
is the header row plus exactly one row per input rebar record in input
order.  The rebar summary itself is a function of the rebar batch alone
(`rebarSummary` takes no filter arguments, mirroring the source's
dependency list `[data.rebarItems]`), so it is identical across the two
passes as well. -/
theorem rebar_output_filter_independent (items : List TakeoffItem)
    (rebarItems : List RebarItem) (s1 f1 s2 f2 : String)
    (unitPrices : List (String × ℚ)) :
    (handleExport items rebarItems s1 f1 unitPrices).rebarSheet
      = (handleExport items rebarItems s2 f2 unitPrices).rebarSheet ∧
    (handleExport items rebarItems s1 f1 unitPrices).rebarSheet
      = rebarHeaderRow :: rebarItems.map rebarRow :=
  ⟨rfl, rfl⟩

/-! ### Claim C2 -/

/-- Updating the bucket map adds exactly the inserted item's quantity to the
sum of the bucket totals. -/
theorem insertGrouped_sum (acc : List (String × GroupedItem)) (key groupName : String)
    (item : TakeoffItem) (axis : String) :
    ((insertGrouped acc key groupName item axis).map (fun p => p.2.totalQuantity)).sum
      = (acc.map (fun p => p.2.totalQuantity)).sum + item.quantity := by
  induction acc with
  | nil => simp [insertGrouped, addMember, emptyGroup]
  | cons e rest ih =>
      rcases e with ⟨k, g⟩
      by_cases hk : k = key
      · simp [insertGrouped, hk, addMember]
        ring
      · simp [insertGrouped, hk, ih]
        ring

/-- The bucket fold accumulates exactly the quantities of the items passing
the filter. -/
theorem buildGroups_fold_sum (searchTerm categoryFilter : String)
    (items : List TakeoffItem) (acc : List (String × GroupedItem)) :
    ((items.foldl (insertItem searchTerm categoryFilter) acc).map
        (fun p => p.2.totalQuantity)).sum
      = (acc.map (fun p => p.2.totalQuantity)).sum +
        ((items.filter (passesFilter searchTerm categoryFilter)).map
          TakeoffItem.quantity).sum := by
  induction items generalizing acc with
  | nil => simp
  | cons i rest ih =>
      by_cases hp : passesFilter searchTerm categoryFilter i
      · rw [List.foldl_cons, ih, List.filter_cons]
        simp only [hp, if_pos]
        rw [insertItem, if_pos hp]
        rw [insertGrouped_sum]
        simp
        ring
      · rw [List.foldl_cons, ih, List.filter_cons]
        simp only [hp]
        rw [insertItem, if_neg hp]
        simp [Bool.not_eq_true] at hp
        simp [hp]

/-- A bucket whose total equals the sum of its member quantities keeps that
property when a member is appended. -/
theorem addMember_total_ok (g : GroupedItem) (item : TakeoffItem) (axis : String)
    (h : g.totalQuantity = (g.items.map (fun a => a.quantity)).sum) :
    (addMember g item axis).totalQuantity
      = ((addMember g item axis).items.map (fun a => a.quantity)).sum := by
  simp [addMember, h]

/-- Every bucket in the map keeps the member-sum invariant across an update. -/
theorem insertGrouped_total_ok (acc : List (String × GroupedItem))
    (key groupName : String) (item : TakeoffItem) (axis : String)
    (h : ∀ p ∈ acc, p.2.totalQuantity = (p.2.items.map (fun a => a.quantity)).sum) :
    ∀ p ∈ insertGrouped acc key groupName item axis,
      p.2.totalQuantity = (p.2.items.map (fun a => a.quantity)).sum := by
  induction acc with
  | nil =>
      intro p hp
      simp [insertGrouped] at hp
      subst hp
      exact addMember_total_ok _ _ _ (by simp [emptyGroup])
  | cons e rest ih =>
      rcases e with ⟨k, g⟩
      intro p hp
      by_cases hk : k = key
      · rw [insertGrouped, if_pos hk] at hp
        rcases List.mem_cons.mp hp with heq | hmem
        · subst heq
          exact addMember_total_ok _ _ _ (h (k, g) (by simp))
        · exact h p (List.mem_cons_of_mem _ hmem)
      · rw [insertGrouped, if_neg hk] at hp
        rcases List.mem_cons.mp hp with heq | hmem
        · subst heq
          exact h (k, g) (by simp)
        · exact ih (fun q hq => h q (List.mem_cons_of_mem _ hq)) p hmem

/-- Every bucket built by the whole fold satisfies the member-sum invariant. -/
theorem buildGroups_fold_total_ok (searchTerm categoryFilter : String)
    (items : List TakeoffItem) (acc : List (String × GroupedItem))
    (h : ∀ p ∈ acc, p.2.totalQuantity = (p.2.items.map (fun a => a.quantity)).sum) :
    ∀ p ∈ items.foldl (insertItem searchTerm categoryFilter) acc,
      p.2.totalQuantity = (p.2.items.map (fun a => a.quantity)).sum := by
  induction items generalizing acc with
  | nil => exact h
  | cons i rest ih =>
      rw [List.foldl_cons]
      refine ih _ ?_
      rw [insertItem]
      by_cases hp : passesFilter searchTerm categoryFilter i
      · rw [if_pos hp]
        exact insertGrouped_total_ok _ _ _ _ _ h
      · rw [if_neg hp]
        exact h

/-- Claim C2: for every item batch, search term and category filter, the sum
of the group totals equals the sum of the quantities of exactly the items
passing both the case-insensitive substring search and the category filter
(exact on ℚ, hence within floating-point reassociation tolerance); and every
group's totalQuantity is the arithmetic sum of its member items' quantities. -/
theorem groupedData_sum_spec (items : List TakeoffItem)
    (searchTerm categoryFilter : String) :
    ((groupedData items searchTerm categoryFilter).map GroupedItem.totalQuantity).sum
      = ((items.filter (passesFilter searchTerm categoryFilter)).map
          TakeoffItem.quantity).sum ∧
    ∀ g ∈ groupedData items searchTerm categoryFilter,
      g.totalQuantity = (g.items.map (fun a => a.quantity)).sum := by
  constructor
  · have hperm : List.Perm
        ((groupedData items searchTerm categoryFilter).map GroupedItem.totalQuantity)
        (((buildGroups items searchTerm categoryFilter).map Prod.snd).map
          GroupedItem.totalQuantity) :=
      (List.perm_insertionSort groupRel _).map _
    rw [hperm.sum_eq, List.map_map]
    have h0 := buildGroups_fold_sum searchTerm categoryFilter items []
    simpa [buildGroups, Function.comp] using h0
  · intro g hg
    rw [groupedData, List.mem_insertionSort] at hg
    rcases List.mem_map.mp hg with ⟨p, hp, hpg⟩
    have := buildGroups_fold_total_ok searchTerm categoryFilter items []
      (by intro q hq; simp at hq) p hp
    rw [hpg] at this
    exact this

/-- Claim C2 witness: the sum theorem applied to the two-item wall batch,
with the membership hypothesis discharged on the concrete group. -/
theorem groupedData_sum_spec_witness :
    ((groupedData [wallItem1, wallItem2] "" "All").map GroupedItem.totalQuantity).sum
      = (([wallItem1, wallItem2].filter (passesFilter "" "All")).map
          TakeoffItem.quantity).sum ∧
    wallGroup.totalQuantity = (wallGroup.items.map (fun a => a.quantity)).sum :=
  ⟨(groupedData_sum_spec [wallItem1, wallItem2] "" "All").1,
   (groupedData_sum_spec [wallItem1, wallItem2] "" "All").2 wallGroup (by decide)⟩

/-! ### Claim C6 -/

/-- The lexicographic comparison is antisymmetric under negation. -/
theorem lexCmpChars_neg : ∀ (a b : List Char), lexCmpChars a b = -lexCmpChars b a := by
  intro a
  induction a with
  | nil => intro b; cases b <;> simp [lexCmpChars]
  | cons x xs ih =>
      intro b
      cases b with
      | nil => simp [lexCmpChars]
      | cons y ys =>
          by_cases h1 : x.toNat < y.toNat
          · have h2 : ¬ y.toNat < x.toNat := by omega
            simp [lexCmpChars, h1, h2]
          · by_cases h2 : y.toNat < x.toNat
            · simp [lexCmpChars, h1, h2]
            · simp [lexCmpChars, h1, h2, ih ys]

/-- Transitivity of the non-strict lexicographic order. -/
theorem lexCmpChars_le_trans : ∀ (a b c : List Char),
    lexCmpChars a b ≤ 0 → lexCmpChars b c ≤ 0 → lexCmpChars a c ≤ 0 := by
  intro a
  induction a with
  | nil => intro b c _ _; cases c <;> simp [lexCmpChars]
  | cons x xs ih =>
      intro b c hab hbc
      cases b with
      | nil => simp [lexCmpChars] at hab
      | cons y ys =>
          cases c with
          | nil => simp [lexCmpChars] at hbc
          | cons z zs =>
              by_cases hxy : x.toNat < y.toNat <;> by_cases hyx : y.toNat < x.toNat <;>
                by_cases hyz : y.toNat < z.toNat <;> by_cases hzy : z.toNat < y.toNat <;>
                simp [lexCmpChars, hxy, hyx, hyz, hzy] at hab hbc ⊢ <;>
                first
                  | omega
                  | (rw [if_neg (by omega), if_neg (by omega)]
                     exact ih ys zs (by omega) (by omega))
                  | (rw [if_neg (by omega), if_neg (by omega)]
                     exact ih ys zs hab hbc)
                  | (rw [if_pos (by omega)]; omega)

/-- `jsIndexOf` is at least −1. -/
theorem jsIndexOf_ge_neg_one (l : List String) (c : String) : -1 ≤ jsIndexOf l c := by
  induction l with
  | nil => simp [jsIndexOf]
  | cons x rest ih =>
      simp only [jsIndexOf]
      by_cases hx : x = c
      · rw [if_pos hx]; omega
      · rw [if_neg hx]
        by_cases hr : jsIndexOf rest c = -1
        · rw [if_pos hr]
        · rw [if_neg hr]; omega

/-- `jsIndexOf` is below the list length. -/
theorem jsIndexOf_lt_length (l : List String) (c : String) :
    jsIndexOf l c < l.length := by
  induction l with
  | nil => simp [jsIndexOf]
  | cons x rest ih =>
      simp only [jsIndexOf, List.length_cons]
      by_cases hx : x = c
      · rw [if_pos hx]; omega
      · rw [if_neg hx]
        by_cases hr : jsIndexOf rest c = -1
        · rw [if_pos hr]; omega
        · rw [if_neg hr]; omega

/-- `jsIndexOf` returns −1 exactly for absent elements. -/
theorem jsIndexOf_eq_neg_one_iff (l : List String) (c : String) :
    jsIndexOf l c = -1 ↔ c ∉ l := by
  induction l with
  | nil => simp [jsIndexOf]
  | cons x rest ih =>
      have hge := jsIndexOf_ge_neg_one rest c
      simp only [jsIndexOf]
      by_cases hx : x = c
      · rw [if_pos hx]
        constructor
        · intro he; exact absurd he (by omega)
        · intro hmem; exact absurd (List.mem_cons_self x rest) (hx ▸ hmem)
      · rw [if_neg hx]
        by_cases hr : jsIndexOf rest c = -1
        · rw [if_pos hr]
          constructor
          · intro _ hmem
            rcases List.mem_cons.mp hmem with h | h
            · exact hx h.symm
            · exact (ih.mp hr) h
          · intro _; rfl
        · rw [if_neg hr]
          constructor
          · intro he; exact absurd he (by omega)
          · intro hmem
            exact absurd (ih.mpr (fun hmm => hmem (List.mem_cons_of_mem x hmm))) hr

/-- On present elements, `jsIndexOf` is injective. -/
theorem jsIndexOf_inj (l : List String) (c1 c2 : String)
    (h1 : c1 ∈ l) (h2 : c2 ∈ l)
    (he : jsIndexOf l c1 = jsIndexOf l c2) : c1 = c2 := by
  induction l with
  | nil => simp at h1
  | cons x rest ih =>
      simp only [jsIndexOf] at he
      by_cases hx1 : x = c1 <;> by_cases hx2 : x = c2
      · rw [← hx1, ← hx2]
      · have hm2 : c2 ∈ rest := by
          rcases List.mem_cons.mp h2 with h | h
          · exact absurd h.symm hx2
          · exact h
        have hr2 : ¬ jsIndexOf rest c2 = -1 :=
          fun hn => ((jsIndexOf_eq_neg_one_iff rest c2).mp hn) hm2
        have hge2 := jsIndexOf_ge_neg_one rest c2
        rw [if_pos hx1, if_neg hx2, if_neg hr2] at he
        omega
      · have hm1 : c1 ∈ rest := by
          rcases List.mem_cons.mp h1 with h | h
          · exact absurd h.symm hx1
          · exact h
        have hr1 : ¬ jsIndexOf rest c1 = -1 :=
          fun hn => ((jsIndexOf_eq_neg_one_iff rest c1).mp hn) hm1
        have hge1 := jsIndexOf_ge_neg_one rest c1
        rw [if_neg hx1, if_pos hx2, if_neg hr1] at he
        omega
      · have hm1 : c1 ∈ rest := by
          rcases List.mem_cons.mp h1 with h | h
          · exact absurd h.symm hx1
          · exact h
        have hm2 : c2 ∈ rest := by
          rcases List.mem_cons.mp h2 with h | h
          · exact absurd h.symm hx2
          · exact h
        have hr1 : ¬ jsIndexOf rest c1 = -1 :=
          fun hn => ((jsIndexOf_eq_neg_one_iff rest c1).mp hn) hm1
        have hr2 : ¬ jsIndexOf rest c2 = -1 :=
          fun hn => ((jsIndexOf_eq_neg_one_iff rest c2).mp hn) hm2
        rw [if_neg hx1, if_neg hx2, if_neg hr1, if_neg hr2] at he
        exact ih hm1 hm2 (by omega)

/-- The comparator characterized as the lexicographic order on
(category priority, name). -/
theorem groupCompare_le_iff (a b : GroupedItem) :
    groupCompare a b ≤ 0 ↔
      (catPriority a < catPriority b ∨
        (catPriority a = catPriority b ∧ localeCompare a.name b.name ≤ 0)) := by
  have hga := jsIndexOf_ge_neg_one CATEGORY_ORDER a.category
  have hgb := jsIndexOf_ge_neg_one CATEGORY_ORDER b.category
  have hla := jsIndexOf_lt_length CATEGORY_ORDER a.category
  have hlb := jsIndexOf_lt_length CATEGORY_ORDER b.category
  have hlen : (CATEGORY_ORDER.length : Int) = 8 := by decide
  rw [hlen] at hla hlb
  have hpa : catPriority a =
      (if jsIndexOf CATEGORY_ORDER a.category = -1 then 999
       else jsIndexOf CATEGORY_ORDER a.category) := rfl
  have hpb : catPriority b =
      (if jsIndexOf CATEGORY_ORDER b.category = -1 then 999
       else jsIndexOf CATEGORY_ORDER b.category) := rfl
  by_cases h : jsIndexOf CATEGORY_ORDER a.category = jsIndexOf CATEGORY_ORDER b.category
  · have hp : catPriority a = catPriority b := by rw [hpa, hpb, h]
    simp only [groupCompare]
    rw [if_neg (by omega)]
    constructor
    · intro hc
      exact Or.inr ⟨hp, hc⟩
    · intro hc
      rcases hc with hc | hc
      · exact absurd hp (by omega)
      · exact hc.2
  · have hne : catPriority a ≠ catPriority b := by
      rw [hpa, hpb]
      by_cases h1 : jsIndexOf CATEGORY_ORDER a.category = -1 <;>
        by_cases h2 : jsIndexOf CATEGORY_ORDER b.category = -1
      · rw [if_pos h1, if_pos h2]; omega
      · rw [if_pos h1, if_neg h2]; omega
      · rw [if_neg h1, if_pos h2]; omega
      · rw [if_neg h1, if_neg h2]; omega
    simp only [groupCompare]
    rw [if_pos h, ← hpa, ← hpb]
    constructor
    · intro hc
      left
      omega
    · intro hc
      rcases hc with hc | hc
      · omega
      · exact absurd hc.1 hne

/-- The comparator order is total. -/
theorem groupRel_total (a b : GroupedItem) : groupRel a b ∨ groupRel b a := by
  rw [groupRel, groupRel, groupCompare_le_iff, groupCompare_le_iff]
  rcases lt_trichotomy (catPriority a) (catPriority b) with h | h | h
  · exact Or.inl (Or.inl h)
  · rcases le_total (localeCompare a.name b.name) 0 with hn | hn
    · exact Or.inl (Or.inr ⟨h, hn⟩)
    · right; right
      refine ⟨h.symm, ?_⟩
      have hneg := lexCmpChars_neg b.name.data a.name.data
      rw [localeCompare] at hn ⊢
      generalize hxg : lexCmpChars a.name.data b.name.data = x at hn hneg
      generalize hyg : lexCmpChars b.name.data a.name.data = y at hneg ⊢
      omega
  · exact Or.inr (Or.inl h)

/-- The comparator order is transitive. -/
theorem groupRel_trans (a b c : GroupedItem)
    (hab : groupRel a b) (hbc : groupRel b c) : groupRel a c := by
  rw [groupRel, groupCompare_le_iff] at hab hbc ⊢
  rcases hab with h1 | ⟨h1, h1n⟩ <;> rcases hbc with h2 | ⟨h2, h2n⟩
  · left; omega
  · left; omega
  · left; omega
  · right
    exact ⟨by omega, lexCmpChars_le_trans a.name.data b.name.data c.name.data h1n h2n⟩

/-- Claim C6 (amended): in the output of `groupedData`, whenever group `a`
appears strictly before group `b`: if both categories are present in
CATEGORY_ORDER and differ, `a`'s category has the strictly smaller canonical
index (so `Sub Structure` precedes `Painting`); a group with a known
category never appears after one with an unknown category; and among groups
whose categories are both absent from the table, the order is by
`localeCompare` of the group names — not by original encounter order. -/
theorem groupedData_order_spec (items : List TakeoffItem)
    (searchTerm categoryFilter : String) (i j : ℕ) (a b : GroupedItem)
    (hij : i < j)
    (ha : (groupedData items searchTerm categoryFilter).get? i = some a)
    (hb : (groupedData items searchTerm categoryFilter).get? j = some b) :
    (a.category ∈ CATEGORY_ORDER → b.category ∈ CATEGORY_ORDER →
       a.category ≠ b.category →
       jsIndexOf CATEGORY_ORDER a.category < jsIndexOf CATEGORY_ORDER b.category) ∧
    (a.category ∉ CATEGORY_ORDER → b.category ∉ CATEGORY_ORDER) ∧
    (a.category ∉ CATEGORY_ORDER → b.category ∉ CATEGORY_ORDER →
       localeCompare a.name b.name ≤ 0) := by
  haveI : IsTotal GroupedItem groupRel := ⟨groupRel_total⟩
  haveI : IsTrans GroupedItem groupRel := ⟨fun x y z => groupRel_trans x y z⟩
  have hs : (groupedData items searchTerm categoryFilter).Pairwise groupRel :=
    List.sorted_insertionSort groupRel _
  rcases List.get?_eq_some.mp ha with ⟨hi, hga⟩
  rcases List.get?_eq_some.mp hb with ⟨hj, hgb⟩
  have hrel : groupRel a b := by
    have hp := List.pairwise_iff_get.mp hs ⟨i, hi⟩ ⟨j, hj⟩ hij
    rwa [hga, hgb] at hp
  rw [groupRel, groupCompare_le_iff] at hrel
  have hga' := jsIndexOf_ge_neg_one CATEGORY_ORDER a.category
  have hgb' := jsIndexOf_ge_neg_one CATEGORY_ORDER b.category
  have hla := jsIndexOf_lt_length CATEGORY_ORDER a.category
  have hlb := jsIndexOf_lt_length CATEGORY_ORDER b.category
  have hlen : (CATEGORY_ORDER.length : Int) = 8 := by decide
  rw [hlen] at hla hlb
  refine ⟨fun hma hmb hne => ?_, fun hna => ?_, fun hna hnb => ?_⟩
  · have h1 : ¬ jsIndexOf CATEGORY_ORDER a.category = -1 := by
      rw [jsIndexOf_eq_neg_one_iff]; exact fun hn => hn hma
    have h2 : ¬ jsIndexOf CATEGORY_ORDER b.category = -1 := by
      rw [jsIndexOf_eq_neg_one_iff]; exact fun hn => hn hmb
    have hinj : jsIndexOf CATEGORY_ORDER a.category ≠ jsIndexOf CATEGORY_ORDER b.category :=
      fun he => hne (jsIndexOf_inj CATEGORY_ORDER a.category b.category hma hmb he)
    rw [catPriority, catPriority, if_neg h1, if_neg h2] at hrel
    omega
  · by_contra hmb
    have h1 : jsIndexOf CATEGORY_ORDER a.category = -1 :=
      (jsIndexOf_eq_neg_one_iff CATEGORY_ORDER a.category).mpr hna
    have h2 : ¬ jsIndexOf CATEGORY_ORDER b.category = -1 := by
      rw [jsIndexOf_eq_neg_one_iff]; exact fun hn => hn hmb
    rw [catPriority, catPriority, if_pos h1, if_neg h2] at hrel
    omega
  · have h1 : jsIndexOf CATEGORY_ORDER a.category = -1 :=
      (jsIndexOf_eq_neg_one_iff CATEGORY_ORDER a.category).mpr hna
    have h2 : jsIndexOf CATEGORY_ORDER b.category = -1 :=
      (jsIndexOf_eq_neg_one_iff CATEGORY_ORDER b.category).mpr hnb
    rw [catPriority, catPriority, if_pos h1, if_pos h2] at hrel
    rcases hrel with h | h
    · omega
    · exact h.2

/-- Claim C6, counterexample: two groups whose categories (`Zcat`, `Ycat`)
are both absent from CATEGORY_ORDER are emitted in encounter order B, A but
sorted to A, B — by name, not by original encounter order, contradicting the
claim's stability clause for unknown categories. -/
theorem groupedData_unknown_category_order_cex :
    ("Zcat" : String) ∉ CATEGORY_ORDER ∧ ("Ycat" : String) ∉ CATEGORY_ORDER ∧
    ((buildGroups [unknownCatItemB, unknownCatItemA] "" "All").map
        (fun p => p.2.name)) = ["B", "A"] ∧
    ((groupedData [unknownCatItemB, unknownCatItemA] "" "All").map
        GroupedItem.name) = ["A", "B"] :=
  ⟨by decide, by decide, by decide, by decide⟩

/-- Claim C6 witness: the order theorem applied to a concrete pass containing
a Painting group and a Sub Structure group, all hypotheses discharged by
evaluation: Sub Structure precedes Painting in the canonical order. -/
theorem groupedData_order_spec_witness :
    jsIndexOf CATEGORY_ORDER "Sub Structure" < jsIndexOf CATEGORY_ORDER "Painting" ∧
    (groupedData [paintItem, subItem] "" "All").get? 0 = some subGroup ∧
    (groupedData [paintItem, subItem] "" "All").get? 1 = some paintGroup :=
  ⟨(groupedData_order_spec [paintItem, subItem] "" "All" 0 1 subGroup paintGroup
      (by decide) (by decide) (by decide)).1 (by decide) (by decide) (by decide),
   by decide, by decide⟩

/-! ### Claim C8 -/

/-- Updating the weight map changes only the updated key, adding `w` there
(an absent key reads as the default 0). -/
theorem addWeight_lookup (acc : List (String × ℚ)) (t : String) (w : ℚ) (t' : String) :
    List.lookup t' (addWeight acc t w)
      = if t' = t then some ((List.lookup t acc).getD 0 + w)
        else List.lookup t' acc := by
  induction acc with
  | nil =>
      by_cases h : t' = t
      · subst h
        simp [addWeight, List.lookup_cons]
      · have hb : (t' == t) = false := beq_eq_false_iff_ne.mpr h
        simp [addWeight, List.lookup_cons, hb, h]
  | cons e rest ih =>
      rcases e with ⟨k, v⟩
      by_cases hk : k = t
      · subst hk
        by_cases h : t' = k
        · subst h
          simp [addWeight, List.lookup_cons]
        · have hb : (t' == k) = false := beq_eq_false_iff_ne.mpr h
          simp [addWeight, List.lookup_cons, hb, h]
      · by_cases h : t' = k
        · have hne : ¬ t' = t := by rw [h]; exact hk
          have hb : (t' == k) = true := beq_iff_eq.mpr h
          simp [addWeight, if_neg hk, List.lookup_cons, hb, hne]
        · have hb : (t' == k) = false := beq_eq_false_iff_ne.mpr h
          have hb2 : (t == k) = false :=
            beq_eq_false_iff_ne.mpr (fun hh => hk hh.symm)
          simp only [addWeight, if_neg hk, List.lookup_cons, hb, hb2]
          exact ih

/-- A key is present after an update iff it was present or is the updated key. -/
theorem addWeight_keys_mem (acc : List (String × ℚ)) (t : String) (w : ℚ) (t' : String) :
    t' ∈ (addWeight acc t w).map Prod.fst ↔ t' ∈ acc.map Prod.fst ∨ t' = t := by
  induction acc with
  | nil => simp [addWeight]
  | cons e rest ih =>
      rcases e with ⟨k, v⟩
      by_cases hk : k = t
      · subst hk
        simp only [addWeight, eq_self_iff_true, if_true, List.map_cons, List.mem_cons]
        tauto
      · simp only [addWeight, if_neg hk, List.map_cons, List.mem_cons, ih]
        tauto

/-- Map update preserves distinctness of the keys. -/
theorem addWeight_keys_nodup (acc : List (String × ℚ)) (t : String) (w : ℚ)
    (h : (acc.map Prod.fst).Nodup) : ((addWeight acc t w).map Prod.fst).Nodup := by
  induction acc with
  | nil => simp [addWeight]
  | cons e rest ih =>
      rcases e with ⟨k, v⟩
      simp only [List.map_cons, List.nodup_cons] at h
      by_cases hk : k = t
      · simp only [addWeight, if_pos hk, List.map_cons, List.nodup_cons]
        exact h
      · simp only [addWeight, if_neg hk, List.map_cons, List.nodup_cons]
        refine ⟨?_, ih h.2⟩
        rw [addWeight_keys_mem]
        rintro (hmem | hmem)
        · exact h.1 hmem
        · exact hk hmem

/-- The accumulated weight at key `t` after the whole rebar fold. -/
theorem rebarWeightMap_fold_lookup (rebarItems : List RebarItem)
    (acc : List (String × ℚ)) (t : String) :
    (List.lookup t (rebarItems.foldl
        (fun a it => addWeight a it.barType it.totalWeight) acc)).getD 0
      = (List.lookup t acc).getD 0 +
        ((rebarItems.filter (fun r => r.barType == t)).map RebarItem.totalWeight).sum := by
  induction rebarItems generalizing acc with
  | nil => simp
  | cons r rest ih =>
      rw [List.foldl_cons, ih, List.filter_cons]
      by_cases h : r.barType = t
      · rw [addWeight_lookup]
        simp [h]
        try ring
      · rw [addWeight_lookup]
        have hne : ¬ t = r.barType := fun hh => h hh.symm
        have hb : (r.barType == t) = false := beq_eq_false_iff_ne.mpr h
        rw [if_neg hne, hb]
        simp

/-- Key membership after the whole rebar fold. -/
theorem rebarWeightMap_keys_mem (rebarItems : List RebarItem)
    (acc : List (String × ℚ)) (t : String) :
    t ∈ (rebarItems.foldl
        (fun a it => addWeight a it.barType it.totalWeight) acc).map Prod.fst
      ↔ t ∈ acc.map Prod.fst ∨ t ∈ rebarItems.map RebarItem.barType := by
  induction rebarItems generalizing acc with
  | nil => simp
  | cons r rest ih =>
      rw [List.foldl_cons, ih, addWeight_keys_mem]
      simp [or_assoc]
      try tauto

/-- Distinct keys after the whole rebar fold. -/
theorem rebarWeightMap_keys_nodup (rebarItems : List RebarItem)
    (acc : List (String × ℚ)) (h : (acc.map Prod.fst).Nodup) :
    ((rebarItems.foldl
        (fun a it => addWeight a it.barType it.totalWeight) acc).map Prod.fst).Nodup := by
  induction rebarItems generalizing acc with
  | nil => exact h
  | cons r rest ih =>
      rw [List.foldl_cons]
      exact ih _ (addWeight_keys_nodup _ _ _ h)

/-- In a map with distinct keys, every entry is retrieved by lookup. -/
theorem lookup_eq_of_mem_nodup {β : Type} (m : List (String × β)) (k : String) (v : β)
    (hmem : (k, v) ∈ m) (hnd : (m.map Prod.fst).Nodup) :
    List.lookup k m = some v := by
  induction m with
  | nil => simp at hmem
  | cons e rest ih =>
      rcases e with ⟨k', v'⟩
      simp only [List.map_cons, List.nodup_cons] at hnd
      rcases List.mem_cons.mp hmem with h | h
      · injection h with h1 h2
        subst h1
        simp [List.lookup, h2]
      · have hk : k ≠ k' := by
          intro hh
          apply hnd.1
          rw [← hh]
          exact List.mem_map.mpr ⟨(k, v), h, rfl⟩
        have hb : (k == k') = false := beq_eq_false_iff_ne.mpr hk
        rw [List.lookup_cons, hb]
        exact ih h hnd.2

/-- The display-name construction is injective. -/
theorem rebarDisplayName_injective : Function.Injective rebarDisplayName := by
  intro t1 t2 h
  have hd := congrArg String.data h
  rw [rebarDisplayName, rebarDisplayName] at hd
  rw [String.data_append, String.data_append, String.data_append, String.data_append] at hd
  have h1 := List.append_cancel_right hd
  have h2 := List.append_cancel_left h1
  cases t1
  cases t2
  exact congrArg String.mk (by simpa using h2)

/-- The summary order is total. -/
theorem summaryRel_total (a b : RebarSummary) : summaryRel a b ∨ summaryRel b a := by
  rw [summaryRel, summaryRel, localeCompare, localeCompare]
  have hneg := lexCmpChars_neg b.name.data a.name.data
  generalize hxg : lexCmpChars a.name.data b.name.data = x at hneg ⊢
  generalize hyg : lexCmpChars b.name.data a.name.data = y at hneg ⊢
  omega

/-- The summary order is transitive. -/
theorem summaryRel_trans (a b c : RebarSummary)
    (hab : summaryRel a b) (hbc : summaryRel b c) : summaryRel a c :=
  lexCmpChars_le_trans a.name.data b.name.data c.name.data hab hbc

/-- Claim C8: the rebar aggregator produces exactly one summary per distinct
barType (a summary named `Reinforcement Bars (Type t)` exists iff `t` occurs
in the batch, and the display names are distinct), every summary has unit
`kg`, the aggregate weight of the summary named after `t` is the sum of
totalWeight over exactly the records with that barType (ignoring member and
shape code), and the output is sorted alphabetically by display name. -/
theorem rebarSummary_spec (rebarItems : List RebarItem) :
    (∀ t, (∃ e ∈ rebarSummary rebarItems, e.name = rebarDisplayName t)
        ↔ t ∈ rebarItems.map RebarItem.barType) ∧
    ((rebarSummary rebarItems).map RebarSummary.name).Nodup ∧
    (∀ e ∈ rebarSummary rebarItems, e.unit = "kg") ∧
    (∀ t e, e ∈ rebarSummary rebarItems → e.name = rebarDisplayName t →
       e.totalQuantity
         = ((rebarItems.filter (fun r => r.barType == t)).map RebarItem.totalWeight).sum) ∧
    (rebarSummary rebarItems).Pairwise summaryRel := by
  have hkeysnd : ((rebarWeightMap rebarItems).map Prod.fst).Nodup := by
    rw [rebarWeightMap]
    exact rebarWeightMap_keys_nodup rebarItems [] (by simp)
  have hmem : ∀ e, e ∈ rebarSummary rebarItems ↔
      ∃ p ∈ rebarWeightMap rebarItems,
        ({ name := rebarDisplayName p.1, totalQuantity := p.2, unit := "kg" }
          : RebarSummary) = e := by
    intro e
    rw [rebarSummary, List.mem_insertionSort, List.mem_map]
  refine ⟨?_, ?_, ?_, ?_, ?_⟩
  · intro t
    constructor
    · rintro ⟨e, hemem, hename⟩
      rcases (hmem e).mp hemem with ⟨p, hp, hpe⟩
      have hname : rebarDisplayName p.1 = rebarDisplayName t := by
        rw [← hename, ← hpe]
      have hpt : p.1 = t := rebarDisplayName_injective hname
      have hk : t ∈ (rebarWeightMap rebarItems).map Prod.fst :=
        List.mem_map.mpr ⟨p, hp, hpt⟩
      have := (rebarWeightMap_keys_mem rebarItems [] t).mp (by rwa [rebarWeightMap] at hk)
      simpa using this
    · intro ht
      have hk : t ∈ (rebarWeightMap rebarItems).map Prod.fst := by
        rw [rebarWeightMap]
        exact (rebarWeightMap_keys_mem rebarItems [] t).mpr (Or.inr ht)
      rcases List.mem_map.mp hk with ⟨p, hp, hpt⟩
      refine ⟨{ name := rebarDisplayName p.1, totalQuantity := p.2, unit := "kg" },
        (hmem _).mpr ⟨p, hp, rfl⟩, by rw [hpt]⟩
  · have hperm : List.Perm
        ((rebarSummary rebarItems).map RebarSummary.name)
        (((rebarWeightMap rebarItems).map
          (fun p => ({ name := rebarDisplayName p.1, totalQuantity := p.2, unit := "kg" }
            : RebarSummary))).map RebarSummary.name) :=
      (List.perm_insertionSort summaryRel _).map _
    rw [hperm.nodup_iff, List.map_map]
    have h2 : ((rebarWeightMap rebarItems).map Prod.fst).map rebarDisplayName
        = (rebarWeightMap rebarItems).map
            (RebarSummary.name ∘ fun p : String × ℚ =>
              ({ name := rebarDisplayName p.1, totalQuantity := p.2, unit := "kg" }
                : RebarSummary)) := by
      rw [List.map_map]
      rfl
    rw [← h2]
    exact hkeysnd.map rebarDisplayName_injective
  · intro e hemem
    rcases (hmem e).mp hemem with ⟨p, hp, hpe⟩
    rw [← hpe]
  · intro t e hemem hename
    rcases (hmem e).mp hemem with ⟨p, hp, hpe⟩
    have hname : rebarDisplayName p.1 = rebarDisplayName t := by
      rw [← hename, ← hpe]
    have hpt : p.1 = t := rebarDisplayName_injective hname
    have hq : e.totalQuantity = p.2 := by rw [← hpe]
    have hlv : List.lookup p.1 (rebarWeightMap rebarItems) = some p.2 :=
      lookup_eq_of_mem_nodup _ _ _ (by rcases p with ⟨p1, p2⟩; exact hp) hkeysnd
    rw [hpt] at hlv
    have hsum := rebarWeightMap_fold_lookup rebarItems [] t
    rw [← rebarWeightMap, hlv] at hsum
    simp at hsum
    rw [hq, hsum]
  · haveI : IsTotal RebarSummary summaryRel := ⟨summaryRel_total⟩
    haveI : IsTrans RebarSummary summaryRel := ⟨fun x y z => summaryRel_trans x y z⟩
    exact List.sorted_insertionSort summaryRel _

/-- Claim C8 witness: the aggregation theorem applied to a concrete batch
with two Y16 records (weights 10 and 7) and one Y12 record; the Y16 summary
exists and its weight 17 equals the filtered sum. -/
theorem rebarSummary_spec_witness :
    (∃ e ∈ rebarSummary [rbA, rbB, rbC], e.name = rebarDisplayName "Y16") ∧
    ({ name := rebarDisplayName "Y16", totalQuantity := 17, unit := "kg" }
        : RebarSummary).totalQuantity
      = (([rbA, rbB, rbC].filter (fun r => r.barType == "Y16")).map
          RebarItem.totalWeight).sum :=
  ⟨((rebarSummary_spec [rbA, rbB, rbC]).1 "Y16").mpr (by decide),
   (rebarSummary_spec [rbA, rbB, rbC]).2.2.2.1 "Y16"
     { name := rebarDisplayName "Y16", totalQuantity := 17, unit := "kg" }
     (by decide) (by decide)⟩

/-! ### Claim C9 -/

/-- A list is a Boolean prefix of itself extended by anything. -/
theorem charsStartWith_self_append (p rest : List Char) :
    charsStartWith p (p ++ rest) = true := by
  induction p with
  | nil => rfl
  | cons c cs ih => simp [charsStartWith, ih]

/-- Replacing the first occurrence of a pattern that starts the string
replaces exactly that leading occurrence. -/
theorem replaceFirstChars_of_leading (p rest r : List Char) :
    replaceFirstChars (p ++ rest) p r = r ++ rest := by
  cases p with
  | nil =>
      cases rest with
      | nil => simp [replaceFirstChars, charsStartWith]
      | cons c cs => simp [replaceFirstChars, charsStartWith]
  | cons c cs =>
      simp only [List.cons_append, replaceFirstChars]
      rw [if_pos (by simpa using charsStartWith_self_append (c :: cs) rest)]
      simp only [List.length_cons, List.drop_succ_cons]
      exact congrArg (fun l => r ++ l) (List.drop_left cs rest)

/-- Removing the first occurrence of a single character absent from `s` from
`s ++ [c]` removes the final character. -/
theorem replaceFirstChars_single_absent (s : List Char) (c : Char) (hc : c ∉ s) :
    replaceFirstChars (s ++ [c]) [c] [] = s := by
  induction s with
  | nil => simp [replaceFirstChars, charsStartWith]
  | cons x xs ih =>
      have hx : (c == x) = false := by
        have : c ≠ x := fun h => hc (by simp [h])
        simpa using this
      simp only [List.cons_append, replaceFirstChars, charsStartWith, hx,
        Bool.false_and]
      rw [if_neg Bool.false_ne_true]
      exact congrArg (List.cons x) (ih (fun hmm => hc (List.mem_cons_of_mem x hmm)))

/-- The bar-type extraction is a left inverse of the display-name
construction for bar types that do not contain a closing parenthesis. -/
theorem extractBarType_displayName (t : String) (h : ')' ∉ t.data) :
    extractBarType (rebarDisplayName t) = t := by
  rw [extractBarType, rebarDisplayName, jsReplaceFirst, jsReplaceFirst]
  have hd : ("Reinforcement Bars (Type " ++ t ++ ")").data
      = "Reinforcement Bars (Type ".data ++ (t.data ++ [')']) := by
    rw [String.data_append, String.data_append, List.append_assoc]
  rw [hd]
  have he : ("" : String).data = ([] : List Char) := rfl
  rw [he, replaceFirstChars_of_leading, List.nil_append]
  rw [replaceFirstChars_single_absent t.data ')' h]

/-- Claim C9, counterexample: for the bar type `"a)b"` (which contains a
closing parenthesis), the extraction removes the first `')'` — inside the
bar type — so the text embedded in the SUMIF formula of the BOQ row is
`"ab)"`, not the bar type itself. -/
theorem boqRebar_barType_cex :
    extractBarType (rebarDisplayName "a)b") = "ab)" ∧
    (boqRebarRow [] { name := rebarDisplayName "a)b", totalQuantity := 1, unit := "kg" } 5).get? 2
      = some (Cell.fOnly (sumIfFormula "ab)")) ∧
    ("ab)" : String) ≠ "a)b" :=
  ⟨by decide, by decide, by decide⟩

/-- Claim C9 (amended): for every bar type `t` that does not contain `')'`,
the extraction of the bar type from the display name is a left inverse of
the display-name construction, and the quantity cell of the BOQ row built
from the summary named `Reinforcement Bars (Type t)` is the conditional-sum
formula embedding exactly `t`. -/
theorem boqRebar_barType_roundtrip (t : String) (h : ')' ∉ t.data)
    (unitPrices : List (String × ℚ)) (q : ℚ) (excelRow : Nat) :
    extractBarType (rebarDisplayName t) = t ∧
    (boqRebarRow unitPrices
        { name := rebarDisplayName t, totalQuantity := q, unit := "kg" } excelRow).get? 2
      = some (Cell.fOnly (sumIfFormula t)) := by
  have he := extractBarType_displayName t h
  refine ⟨he, ?_⟩
  simp [boqRebarRow, he]

/-- Claim C9 witness: the round-trip theorem applied to the bar type `Y16`. -/
theorem boqRebar_barType_roundtrip_witness :
    extractBarType (rebarDisplayName "Y16") = "Y16" ∧
    (boqRebarRow [] { name := rebarDisplayName "Y16", totalQuantity := 1, unit := "kg" } 2).get? 2
      = some (Cell.fOnly (sumIfFormula "Y16")) :=
  boqRebar_barType_roundtrip "Y16" (by decide) [] 1 2

/-! ### Claim C1 -/

/-- The two-rows-per-item block has twice the item count of rows. -/
theorem itemsBlock_length (its : List AxisItem) :
    (its.foldr (fun it acc => itemDataRow it :: itemCalcRow it :: acc) []).length
      = 2 * its.length := by
  induction its with
  | nil => rfl
  | cons it rest ih =>
      simp only [List.foldr_cons, List.length_cons, ih]
      ring

/-- Folding the item pusher appends exactly the two-rows-per-item block,
leaves the address map untouched and advances the counter by two per item. -/
theorem foldl_pushItemRows (its : List AxisItem) (st : DimState) :
    (its.foldl pushItemRows st).rows
        = st.rows ++ its.foldr (fun it acc => itemDataRow it :: itemCalcRow it :: acc) [] ∧
    (its.foldl pushItemRows st).addrMap = st.addrMap ∧
    (its.foldl pushItemRows st).currentRowIdx = st.currentRowIdx + 2 * its.length := by
  induction its generalizing st with
  | nil => exact ⟨by simp, rfl, by simp⟩
  | cons it rest ih =>
      obtain ⟨h1, h2, h3⟩ := ih (pushItemRows st it)
      refine ⟨?_, ?_, ?_⟩
      · rw [List.foldl_cons, h1]
        show (st.rows ++ [itemDataRow it, itemCalcRow it]) ++ _ = _
        simp
      · rw [List.foldl_cons, h2]
        exact rfl
      · rw [List.foldl_cons, h3]
        show st.currentRowIdx + 2 + 2 * rest.length = st.currentRowIdx + 2 * (it :: rest).length
        simp only [List.length_cons]
        ring

/-- The category-change detector appends zero or one rows, touching neither
the address map nor the invariant between counter and row count. -/
theorem emitCatHeader_spec (st : DimState) (g : GroupedItem) :
    ∃ pre : List Row,
      (emitCatHeader st g).rows = st.rows ++ pre ∧
      (emitCatHeader st g).addrMap = st.addrMap ∧
      (emitCatHeader st g).currentRowIdx = st.currentRowIdx + pre.length := by
  rw [emitCatHeader]
  by_cases h : g.category ≠ st.lastCat
  · rw [if_pos h]
    exact ⟨[[Cell.str "", Cell.str (jsToUpper g.category), Cell.str "", Cell.str ""]],
      rfl, rfl, rfl⟩
  · rw [if_neg h]
    exact ⟨[], by simp, rfl, by simp⟩

/-- One group emission appends the group's block followed by its subtotal row
and a spacer, and records exactly one address entry: the group name paired
with the address of the row index at which the subtotal row sits. -/
theorem emitGroup_spec (st : DimState) (g : GroupedItem) :
    ∃ pre : List Row,
      (emitGroup st g).rows = st.rows ++ pre ++ [subtotalRow g, []] ∧
      (emitGroup st g).addrMap
        = st.addrMap ++ [(g.name, dimAddr (st.currentRowIdx + pre.length))] ∧
      (emitGroup st g).currentRowIdx = st.currentRowIdx + pre.length + 2 := by
  obtain ⟨p1, hr1, ha1, hc1⟩ := emitCatHeader_spec st g
  obtain ⟨h1, h2, h3⟩ := foldl_pushItemRows g.items
    (pushRow (emitCatHeader st g) [Cell.str "", Cell.str g.name, Cell.str "", Cell.str ""])
  refine ⟨p1 ++ [Cell.str "", Cell.str g.name, Cell.str "", Cell.str ""]
      :: g.items.foldr (fun it acc => itemDataRow it :: itemCalcRow it :: acc) [], ?_, ?_, ?_⟩
  · have hrows : (emitGroup st g).rows
        = (g.items.foldl pushItemRows
            (pushRow (emitCatHeader st g)
              [Cell.str "", Cell.str g.name, Cell.str "", Cell.str ""])).rows
          ++ [subtotalRow g] ++ [[]] := rfl
    rw [hrows, h1]
    have hpr : (pushRow (emitCatHeader st g)
        [Cell.str "", Cell.str g.name, Cell.str "", Cell.str ""]).rows
        = (emitCatHeader st g).rows
          ++ [[Cell.str "", Cell.str g.name, Cell.str "", Cell.str ""]] := rfl
    rw [hpr, hr1]
    simp
  · have haddr : (emitGroup st g).addrMap
        = (g.items.foldl pushItemRows
            (pushRow (emitCatHeader st g)
              [Cell.str "", Cell.str g.name, Cell.str "", Cell.str ""])).addrMap
          ++ [(g.name, dimAddr (g.items.foldl pushItemRows
              (pushRow (emitCatHeader st g)
                [Cell.str "", Cell.str g.name, Cell.str "", Cell.str ""])).currentRowIdx)] := rfl
    rw [haddr, h2, h3]
    have hpa : (pushRow (emitCatHeader st g)
        [Cell.str "", Cell.str g.name, Cell.str "", Cell.str ""]).addrMap
        = (emitCatHeader st g).addrMap := rfl
    have hpc : (pushRow (emitCatHeader st g)
        [Cell.str "", Cell.str g.name, Cell.str "", Cell.str ""]).currentRowIdx
        = (emitCatHeader st g).currentRowIdx + 1 := rfl
    rw [hpa, hpc, ha1, hc1]
    have hlen : (p1 ++ [Cell.str "", Cell.str g.name, Cell.str "", Cell.str ""]
        :: g.items.foldr (fun it acc => itemDataRow it :: itemCalcRow it :: acc) []).length
        = p1.length + (2 * g.items.length + 1) := by
      simp [itemsBlock_length]
    rw [hlen]
    have harg : st.currentRowIdx + p1.length + 1 + 2 * g.items.length
        = st.currentRowIdx + (p1.length + (2 * g.items.length + 1)) := by omega
    rw [harg]
  · have hc : (emitGroup st g).currentRowIdx
        = (g.items.foldl pushItemRows
            (pushRow (emitCatHeader st g)
              [Cell.str "", Cell.str g.name, Cell.str "", Cell.str ""])).currentRowIdx
          + 1 + 1 := rfl
    rw [hc, h3]
    have hpc : (pushRow (emitCatHeader st g)
        [Cell.str "", Cell.str g.name, Cell.str "", Cell.str ""]).currentRowIdx
        = (emitCatHeader st g).currentRowIdx + 1 := rfl
    rw [hpc, hc1]
    have hlen : (p1 ++ [Cell.str "", Cell.str g.name, Cell.str "", Cell.str ""]
        :: g.items.foldr (fun it acc => itemDataRow it :: itemCalcRow it :: acc) []).length
        = p1.length + (2 * g.items.length + 1) := by
      simp [itemsBlock_length]
    rw [hlen]
    omega

/-- The whole Dim-Sheet fold: the counter equals the physical row count, the
address map grows by exactly one entry per group, rows are append-only, and
each entry pairs its group's name with the address of the row index holding
that group's subtotal row in the final sheet. -/
theorem emitDim_fold_spec (gd : List GroupedItem) (st : DimState)
    (hinv : st.currentRowIdx = st.rows.length) :
    (gd.foldl emitGroup st).currentRowIdx = (gd.foldl emitGroup st).rows.length ∧
    ∃ entries,
      (gd.foldl emitGroup st).addrMap = st.addrMap ++ entries ∧
      (∃ ext, (gd.foldl emitGroup st).rows = st.rows ++ ext) ∧
      List.Forall₂
        (fun g e => e.1 = g.name ∧ ∃ r, e.2 = dimAddr r ∧
           (gd.foldl emitGroup st).rows.get? r = some (subtotalRow g))
        gd entries := by
  induction gd generalizing st with
  | nil =>
      exact ⟨hinv, [], by simp, ⟨[], by simp⟩, List.Forall₂.nil⟩
  | cons g gs ih =>
      simp only [List.foldl_cons]
      obtain ⟨pre, hrows, haddr, hidx⟩ := emitGroup_spec st g
      have hinv1 : (emitGroup st g).currentRowIdx = (emitGroup st g).rows.length := by
        rw [hrows, hidx, hinv]
        simp
        omega
      obtain ⟨hinv2, entries', haddr', ⟨ext', hrows'⟩, hforall⟩ :=
        ih (emitGroup st g) hinv1
      refine ⟨hinv2,
        (g.name, dimAddr (st.currentRowIdx + pre.length)) :: entries', ?_, ?_, ?_⟩
      · rw [haddr', haddr]
        simp
      · exact ⟨pre ++ [subtotalRow g, []] ++ ext', by rw [hrows', hrows]; simp⟩
      · refine List.Forall₂.cons ⟨rfl, st.currentRowIdx + pre.length, rfl, ?_⟩ hforall
        rw [hrows', hrows]
        have hidx0 : st.currentRowIdx + pre.length = (st.rows ++ pre).length := by
          rw [hinv]
          simp
        have hre : st.rows ++ pre ++ [subtotalRow g, []] ++ ext'
            = (st.rows ++ pre) ++ ([subtotalRow g, []] ++ ext') := by
          simp
        rw [hre, hidx0, List.get?_append_right (le_refl _)]
        simp

/-- If no entry of the record carries the key, the lookup returns none. -/
theorem recordGet_none {β : Type} (m : List (String × β)) (k : String)
    (h : ∀ e ∈ m, e.1 ≠ k) : recordGet m k = none := by
  induction m with
  | nil => rfl
  | cons e rest ih =>
      simp only [recordGet]
      rw [ih (fun x hx => h x (List.mem_cons_of_mem e hx))]
      exact if_neg (h e (List.mem_cons_self e rest))

/-- Whatever the lookup returns was recorded for that key. -/
theorem recordGet_mem {β : Type} (m : List (String × β)) (k : String) (v : β)
    (h : recordGet m k = some v) : (k, v) ∈ m := by
  induction m with
  | nil => simp [recordGet] at h
  | cons e rest ih =>
      simp only [recordGet] at h
      cases hrg : recordGet rest k with
      | some v' =>
          rw [hrg] at h
          injection h with hv
          subst hv
          exact List.mem_cons_of_mem e (ih hrg)
      | none =>
          rw [hrg] at h
          by_cases he : e.1 = k
          · rw [if_pos he] at h
            injection h with hv
            have : (k, v) = e := by
              rcases e with ⟨e1, e2⟩
              simp only at he hv
              rw [← he, ← hv]
            rw [this]
            exact List.mem_cons_self e rest
          · rw [if_neg he] at h
            exact absurd h (by simp)

/-- A key that occurs in the record is found by the lookup. -/
theorem recordGet_isSome_of_key {β : Type} (m : List (String × β)) (k : String)
    (h : ∃ e ∈ m, e.1 = k) : ∃ v, recordGet m k = some v := by
  induction m with
  | nil => simp at h
  | cons e rest ih =>
      simp only [recordGet]
      cases hrg : recordGet rest k with
      | some v => exact ⟨v, rfl⟩
      | none =>
          rcases h with ⟨e', he', hk⟩
          rcases List.mem_cons.mp he' with he1 | he1
          · refine ⟨e.2, ?_⟩
            rw [if_pos (he1 ▸ hk)]
          · exfalso
            obtain ⟨v, hv⟩ := ih ⟨e', he1, hk⟩
            rw [hv] at hrg
            cases hrg

/-- Every right element of a Forall₂ is related to some left element. -/
theorem forall2_mem_right {α β : Type} {R : α → β → Prop} :
    ∀ {l1 : List α} {l2 : List β}, List.Forall₂ R l1 l2 →
      ∀ b ∈ l2, ∃ a ∈ l1, R a b := by
  intro l1 l2 hf
  induction hf with
  | nil => intro b hb; simp at hb
  | @cons a b as bs hab htail ih =>
      intro x hx
      rcases List.mem_cons.mp hx with h | h
      · subst h
        exact ⟨a, List.mem_cons_self a as, hab⟩
      · obtain ⟨a', ha', hr⟩ := ih x h
        exact ⟨a', List.mem_cons_of_mem a ha', hr⟩

/-- Every left element of a Forall₂ is related to some right element. -/
theorem forall2_mem_left {α β : Type} {R : α → β → Prop} :
    ∀ {l1 : List α} {l2 : List β}, List.Forall₂ R l1 l2 →
      ∀ a ∈ l1, ∃ b ∈ l2, R a b := by
  intro l1 l2 hf
  induction hf with
  | nil => intro a ha; simp at ha
  | @cons a b as bs hab htail ih =>
      intro x hx
      rcases List.mem_cons.mp hx with h | h
      · subst h
        exact ⟨b, List.mem_cons_self b bs, hab⟩
      · obtain ⟨b', hb', hr⟩ := ih x h
        exact ⟨b', List.mem_cons_of_mem b hb', hr⟩

/-- With pairwise-distinct group names, the last-write-wins lookup retrieves
each group's own entry. -/
theorem recordGet_forall2_nodup {Q : GroupedItem → String × String → Prop} :
    ∀ {gd : List GroupedItem} {entries : List (String × String)},
      List.Forall₂ (fun g e => e.1 = g.name ∧ Q g e) gd entries →
      (gd.map GroupedItem.name).Nodup →
      ∀ g ∈ gd, ∃ e ∈ entries, e.1 = g.name ∧ Q g e ∧
        recordGet entries g.name = some e.2 := by
  intro gd entries hf
  induction hf with
  | nil => intro _ g hg; simp at hg
  | @cons a b as bs hab htail ih =>
      intro hnd g hg
      simp only [List.map_cons, List.nodup_cons] at hnd
      rcases List.mem_cons.mp hg with h | h
      · subst h
        refine ⟨b, List.mem_cons_self b bs, hab.1, hab.2, ?_⟩
        simp only [recordGet]
        have hnone : recordGet bs g.name = none := by
          apply recordGet_none
          intro e he
          obtain ⟨g', hg', hr⟩ := forall2_mem_right htail e he
          rw [hr.1]
          intro hcon
          exact hnd.1 (hcon ▸ List.mem_map.mpr ⟨g', hg', rfl⟩)
        rw [hnone]
        exact if_pos hab.1
      · obtain ⟨e, he, h1, h2, h3⟩ := ih hnd.2 g h
        refine ⟨e, List.mem_cons_of_mem b he, h1, h2, ?_⟩
        simp only [recordGet]
        rw [h3]

/-- A recorded cross-sheet address is never the empty string (JS truthiness
of the recorded reference therefore always selects the formula branch). -/
theorem dimAddr_ne_empty (r : Nat) : dimAddr r ≠ "" := by
  intro hcon
  have hd := congrArg String.data hcon
  rw [dimAddr, String.data_append, String.data_append, String.data_append,
    String.data_append] at hd
  simp [sq] at hd

/-- Claim C1: in one synthesis pass, (1) the address map records, for every
group in emission order, that group's name paired with a `'Dim Sheet'!D…`
address whose 0-based row index holds exactly that group's subtotal row in
the emitted Dim Sheet; (2) for every group, the entry consulted during BOQ
emission is an address recorded for a group with that group's name (it
points at the subtotal row of such a group); and (3) when all group names in
the pass are pairwise distinct, every BOQ group row's quantity cell is the
cross-sheet formula referencing that same group's own subtotal cell. -/
theorem dim_addr_map_spec (gd : List GroupedItem) :
    List.Forall₂
      (fun g e => e.1 = g.name ∧ ∃ r, e.2 = dimAddr r ∧
         (emitDimSheet gd).rows.get? r = some (subtotalRow g))
      gd (emitDimSheet gd).addrMap ∧
    (∀ g ∈ gd, ∃ gm r, gm ∈ gd ∧ gm.name = g.name ∧
       recordGet (emitDimSheet gd).addrMap g.name = some (dimAddr r) ∧
       (emitDimSheet gd).rows.get? r = some (subtotalRow gm)) ∧
    ((gd.map GroupedItem.name).Nodup →
       ∀ g ∈ gd, ∃ r,
         boqQtyCell (emitDimSheet gd).addrMap g = Cell.fOnly (dimAddr r) ∧
         (emitDimSheet gd).rows.get? r = some (subtotalRow g)) := by
  obtain ⟨hinv, entries, haddr, ⟨ext, hrows⟩, hforall⟩ :=
    emitDim_fold_spec gd dimInit rfl
  have haddr0 : (emitDimSheet gd).addrMap = entries := by
    rw [emitDimSheet, haddr]
    rfl
  have hforall0 : List.Forall₂
      (fun g e => e.1 = g.name ∧ ∃ r, e.2 = dimAddr r ∧
         (emitDimSheet gd).rows.get? r = some (subtotalRow g))
      gd (emitDimSheet gd).addrMap := by
    rw [haddr0, emitDimSheet]
    exact hforall
  refine ⟨hforall0, ?_, ?_⟩
  · intro g hg
    obtain ⟨e, he, hr⟩ := forall2_mem_left hforall0 g hg
    obtain ⟨v, hv⟩ := recordGet_isSome_of_key (emitDimSheet gd).addrMap g.name
      ⟨e, he, hr.1⟩
    have hmem : (g.name, v) ∈ (emitDimSheet gd).addrMap :=
      recordGet_mem _ _ _ hv
    obtain ⟨gm, hgm, hrel⟩ := forall2_mem_right hforall0 (g.name, v) hmem
    obtain ⟨hname, r, hvr, hget⟩ := hrel
    exact ⟨gm, r, hgm, hname.symm, by rw [hv, ← hvr], hget⟩
  · intro hnd g hg
    obtain ⟨e, he, hk, ⟨r, he2, hget⟩, hrec⟩ :=
      recordGet_forall2_nodup hforall0 hnd g hg
    refine ⟨r, ?_, hget⟩
    simp only [boqQtyCell]
    rw [hrec, he2]
    exact if_neg (dimAddr_ne_empty r)

/-- Claim C1 witness: the address-map theorem applied to the concrete
two-group pass [subGroup, paintGroup] (distinct names), instantiated at the
second group. -/
theorem dim_addr_map_spec_witness :
    ∃ r, boqQtyCell (emitDimSheet [subGroup, paintGroup]).addrMap paintGroup
        = Cell.fOnly (dimAddr r) ∧
      (emitDimSheet [subGroup, paintGroup]).rows.get? r
        = some (subtotalRow paintGroup) :=
  (dim_addr_map_spec [subGroup, paintGroup]).2.2 (by decide) paintGroup (by decide)

end ClaimProofs

end Takeoff
